import Mathlib

/-!
Verification of the nearest-neighbour tour construction in
`nearestNeighbor.py` (repository `Ghassan-Alaraj/Nearest-Neighbor-Python-`).

The graph is embedded as an explicit node list together with an undirected
weighted edge list; edge weights are embedded as natural numbers (the source
stores non-negative floats).  The shortest-path engine used by the source is
the external `networkx` library, whose code is not part of the repository;
it is modelled from the spec's contract (minimum cumulative edge weight over
all walks, deterministic path reconstruction, `NodeNotFound` / `Unreachable`
failures).  The tour builder `nearest_neighbor`, the partitioning performed
in `main`, and the stitching of per-leg paths are translated directly from
the Python source.  Python exceptions are modelled as an error type:
`IndexError` for `homes[0]` on an empty list, `RegionNotFound` for the
`ValueError` that `list.index` raises when a region label is absent.
-/

/-- Error kinds.  `NodeNotFound`/`Unreachable` model the networkx exceptions,
`IndexError` models Python's exception for `homes[0]` on an empty list,
`RegionNotFound` models the `ValueError` of `list.index` on an absent label,
and `OutOfFuel` is the artefact of the fuelled loop embedding (proved
unreachable from the chosen fuel). -/
inductive Err where
  | NodeNotFound
  | Unreachable
  | IndexError
  | RegionNotFound
  | OutOfFuel
  deriving DecidableEq, Repr

deriving instance DecidableEq for Except

/-- A weighted undirected graph: node identifiers with a list of weighted
edges, mirroring the networkx graph loaded by `read_network`. -/
structure Graph where
  nodes : List String
  edges : List (String × String × Nat)
  deriving DecidableEq, Repr

/-- All weights carried by edges between `u` and `v` (either orientation). -/
def edgeWeights (g : Graph) (u v : String) : List Nat :=
  g.edges.filterMap fun e =>
    if (e.1 = u ∧ e.2.1 = v) ∨ (e.1 = v ∧ e.2.1 = u) then some e.2.2 else none

/-- Minimum of a list of naturals (`none` on the empty list). -/
def listMin? : List Nat → Option Nat
  | [] => none
  | x :: t =>
    match listMin? t with
    | none => some x
    | some m => some (Nat.min x m)

/-- Weight of the cheapest edge between `u` and `v`, if one exists (parallel
edges resolved to the minimum weight, per the spec's data model). -/
def edgeWeight? (g : Graph) (u v : String) : Option Nat :=
  listMin? (edgeWeights g u v)

/-- A walk through the graph, decided executably: a nonempty sequence of
graph nodes in which consecutive nodes are joined by an edge. -/
def isWalkB (g : Graph) : List String → Bool
  | [] => false
  | [x] => g.nodes.contains x
  | x :: y :: t => g.nodes.contains x && (edgeWeight? g x y).isSome && isWalkB g (y :: t)

/-- A walk through the graph: a nonempty sequence of graph nodes in which
consecutive nodes are joined by an edge. -/
def isWalk (g : Graph) (l : List String) : Prop :=
  isWalkB g l = true

instance (g : Graph) (l : List String) : Decidable (isWalk g l) :=
  inferInstanceAs (Decidable (_ = true))

/-- Cumulative edge weight along a sequence of nodes. -/
def walkWeight (g : Graph) : List String → Nat
  | [] => 0
  | [_] => 0
  | x :: y :: t => (edgeWeight? g x y).getD 0 + walkWeight g (y :: t)

/-- `a` is reachable from `b` when some walk joins them. -/
def Reachable (g : Graph) (a b : String) : Prop :=
  ∃ l, isWalk g l ∧ l.head? = some a ∧ l.getLast? = some b

/-- Modelled from the spec: the candidate set of a brute-force shortest-path
search — every duplicate-free walk from `a` to `b` through the graph.  The
spec (§4.1, §8) fixes only the contract (minimum cumulative weight over all
walks and deterministic reconstruction); the source delegates the search to
networkx, which is not part of the repository. -/
def candidatePaths (g : Graph) (a b : String) : List (List String) :=
  (g.nodes.sublists.flatMap List.permutations').filter
    fun p => isWalkB g p && (p.head? == some a) && (p.getLast? == some b)

/-- Modelled from the spec: the distance query of the shortest-path engine
(`nx.shortest_path_length` in the source, weighted by `weight`).  Fails with
`NodeNotFound` when either endpoint is absent and with `Unreachable` when no
walk joins the endpoints. -/
def spl_dist (g : Graph) (a b : String) : Except Err Nat :=
  if g.nodes.contains a && g.nodes.contains b then
    match listMin? ((candidatePaths g a b).map (walkWeight g)) with
    | some d => .ok d
    | none => .error .Unreachable
  else .error .NodeNotFound

/-- Modelled from the spec: the path query of the shortest-path engine
(`nx.shortest_path` in the source).  Returns the first candidate path
attaining the minimum weight (deterministic tie-breaking). -/
def spl_path (g : Graph) (a b : String) : Except Err (List String) :=
  if g.nodes.contains a && g.nodes.contains b then
    match listMin? ((candidatePaths g a b).map (walkWeight g)) with
    | some d =>
      match (candidatePaths g a b).find? (fun p => walkWeight g p == d) with
      | some p => .ok p
      | none => .error .Unreachable
    | none => .error .Unreachable
  else .error .NodeNotFound

/-- The source's `shortest_path_length(network, a, b, distance)` wrapper:
returns the distance when `distance` is true and the path otherwise (the
trailing `return None` in the source is unreachable for a boolean flag). -/
def shortest_path_length (network : Graph) (a b : String) (distance : Bool) :
    Except Err (Nat ⊕ List String) :=
  if distance then (spl_dist network a b).map Sum.inl
  else (spl_path network a b).map Sum.inr

/-- Index of the first minimum of a list, as `np.argmin` computes it
(`0` on the empty list, which `np.argmin` rejects). -/
def argminIdx : List Nat → Nat
  | [] => 0
  | [_] => 0
  | x :: y :: t =>
    if x ≤ (y :: t).getD (argminIdx (y :: t)) 0 then 0
    else argminIdx (y :: t) + 1

/-- The distance-collection loop of `nearest_neighbor`
(`for i in range(len(homes)): all_dist.append(shortest_path_length(...))`);
the first failing query propagates its exception. -/
def mapDistances (g : Graph) (curr : String) : List String → Except Err (List Nat)
  | [] => .ok []
  | h :: t =>
    match spl_dist g curr h with
    | .error e => .error e
    | .ok dd =>
      match mapDistances g curr t with
      | .error e => .error e
      | .ok ds => .ok (dd :: ds)

/-- The `while not homes == []` loop of `nearest_neighbor`, with the mutable
Python state passed explicitly: current node, remaining stop list,
`going_back` flag and the three result logs.  The final value of the
(caller-aliased) `homes` list is returned as the fourth component.  `fuel`
bounds the number of iterations; `nearest_neighbor` supplies enough fuel
that `OutOfFuel` is unreachable. -/
def nnLoop (g : Graph) :
    Nat → String → List String → Bool → List Nat → List String →
    List (List String) →
    Except Err (List Nat × List String × List (List String) × List String)
  | 0, _, _, _, _, _, _ => .error .OutOfFuel
  | fuel + 1, curr, homes, going_back, dist_min, path_homes, path_full =>
    if homes = [] then .ok (dist_min, path_homes, path_full, homes)
    else
      match mapDistances g curr homes with
      | .error e => .error e
      | .ok all_dist =>
        match (if homes.length ≠ 1
               then (spl_path g curr (homes.getD (argminIdx all_dist) "")).map
                      List.dropLast
               else spl_path g curr (homes.getD (argminIdx all_dist) "")) with
        | .error e => .error e
        | .ok seg =>
          nnLoop g fuel (homes.getD (argminIdx all_dist) "")
            ((if going_back = false ∧ homes.length = 1
              then homes ++ ["Auckland Airport"] else homes).erase
              (homes.getD (argminIdx all_dist) ""))
            (if going_back = false ∧ homes.length = 1 then true else going_back)
            (dist_min ++ [all_dist.getD (argminIdx all_dist) 0])
            (path_homes ++ [curr]) (path_full ++ [seg])

/-- The source's `nearest_neighbor(network, homes)`.  On an empty list,
`homes[0]` raises (modelled as `IndexError`); otherwise the depot is removed
from the list, the greedy loop runs, and the saved depot name is appended to
the visited-stops log.  The result carries `(dist_min, path_homes,
path_homes_full)` plus the final state of the caller's `homes` list. -/
def nearest_neighbor (g : Graph) (homes : List String) :
    Except Err (List Nat × List String × List (List String) × List String) :=
  match homes with
  | [] => .error .IndexError
  | curr :: rest =>
    match nnLoop g ((curr :: rest).length + 2) curr ((curr :: rest).erase curr)
        false [] [] [] with
    | .error e => .error e
    | .ok (dist_min, path_homes, path_full, hfin) =>
      .ok (dist_min, path_homes ++ [curr], path_full, hfin)

/-- Python's `list.index`, returning `none` where Python raises
`ValueError`. -/
def pyIndex? (l : List String) (x : String) : Option Nat :=
  match l with
  | [] => none
  | y :: t => if y = x then some 0 else (pyIndex? t x).map (· + 1)

/-- The region-partitioning expression of `main`:
`auk_airport + rest_homes[region.index(search) : n - region[::-1].index(search)]`
with `n = len(region)`, parameterised by the searched label. -/
def partitionRegion (rest_homes region : List String) (search : String) :
    Except Err (List String) :=
  match pyIndex? region search, pyIndex? region.reverse search with
  | some i, some j =>
    .ok ("Auckland Airport" ::
      ((rest_homes.drop i).take (region.length - j - i)))
  | _, _ => .error .RegionNotFound

/-- One step of seam-deduplicated concatenation: if the accumulated walk
already ends with the first node of the next segment, that node is not
repeated. -/
def stitchStep (acc seg : List String) : List String :=
  if acc.getLast? = seg.head? then acc ++ seg.tail else acc ++ seg

/-- Concatenation of the logged `full_path` segments, deduplicated at seams
(the "stitching" of the spec's glossary). -/
def stitchDedup (segs : List (List String)) : List String :=
  segs.foldl stitchStep []

/-! ### Basic list facts -/

theorem getD_mem {α : Type} {l : List α} {i : Nat} (d : α) (h : i < l.length) :
    l.getD i d ∈ l := by
  induction l generalizing i with
  | nil => simp at h
  | cons x t ih =>
    cases i with
    | zero => simp
    | succ n =>
      simp only [List.getD_cons_succ]
      exact List.mem_cons_of_mem _ (ih (by simpa using h))

theorem mem_of_getLast?_eq_some {α : Type} {l : List α} {a : α}
    (h : l.getLast? = some a) : a ∈ l := by
  obtain ⟨hne, he⟩ := @List.mem_getLast?_eq_getLast _ l a (by simp [h])
  exact he ▸ List.getLast_mem hne

theorem mem_of_head?_eq_some {α : Type} {l : List α} {a : α}
    (h : l.head? = some a) : a ∈ l := by
  cases l with
  | nil => simp at h
  | cons x t => simp at h; simp [h]

/-! ### `listMin?` -/

theorem listMin?_eq_none_iff (l : List Nat) : listMin? l = none ↔ l = [] := by
  cases l with
  | nil => simp [listMin?]
  | cons x t =>
    simp only [listMin?]
    cases h : listMin? t <;> simp

theorem listMin?_spec : ∀ (l : List Nat) (m : Nat), listMin? l = some m →
    m ∈ l ∧ ∀ x ∈ l, m ≤ x := by
  intro l
  induction l with
  | nil => intro m hm; simp [listMin?] at hm
  | cons x t ih =>
    intro m hm
    cases h : listMin? t with
    | none =>
      rw [listMin?, h] at hm
      cases hm
      have ht : t = [] := (listMin?_eq_none_iff t).mp h
      subst ht
      simp
    | some m0 =>
      rw [listMin?, h] at hm
      cases hm
      obtain ⟨hmem, hle⟩ := ih m0 h
      refine ⟨?_, ?_⟩
      · rcases Nat.le_total x m0 with hx | hx
        · simp [Nat.min_eq_left hx]
        · simp [Nat.min_eq_right hx]
          exact Or.inr hmem
      · intro y hy
        rcases List.mem_cons.mp hy with rfl | hyt
        · exact Nat.min_le_left _ _
        · exact le_trans (Nat.min_le_right _ _) (hle y hyt)

theorem listMin?_isSome_of_ne_nil {l : List Nat} (h : l ≠ []) :
    ∃ m, listMin? l = some m := by
  cases hm : listMin? l with
  | none => exact absurd ((listMin?_eq_none_iff l).mp hm) h
  | some m => exact ⟨m, rfl⟩

/-! ### `argminIdx` (the embedding of `np.argmin`) -/

theorem argminIdx_lt_length : ∀ (l : List Nat), l ≠ [] → argminIdx l < l.length
  | [], h => absurd rfl h
  | [_], _ => by simp [argminIdx]
  | x :: y :: t, _ => by
    rw [argminIdx]
    split
    · simp
    · have := argminIdx_lt_length (y :: t) (by simp)
      simpa [Nat.succ_lt_succ_iff] using this

theorem argminIdx_le : ∀ (l : List Nat) (j : Nat), j < l.length →
    l.getD (argminIdx l) 0 ≤ l.getD j 0
  | [], j, h => by simp at h
  | [x], j, h => by
    have hj : j = 0 := by simp at h; omega
    subst hj
    simp [argminIdx]
  | x :: y :: t, j, h => by
    by_cases hx : x ≤ (y :: t).getD (argminIdx (y :: t)) 0
    · rw [argminIdx, if_pos hx]
      cases j with
      | zero => simp
      | succ k =>
        have hk : k < (y :: t).length := by simpa using h
        simpa using le_trans hx (argminIdx_le (y :: t) k hk)
    · rw [argminIdx, if_neg hx]
      cases j with
      | zero =>
        simp only [List.getD_cons_succ, List.getD_cons_zero]
        exact Nat.le_of_lt (Nat.lt_of_not_le hx)
      | succ k =>
        have hk : k < (y :: t).length := by simpa using h
        simpa using argminIdx_le (y :: t) k hk

theorem argminIdx_first_min : ∀ (l : List Nat) (j : Nat), j < argminIdx l →
    l.getD (argminIdx l) 0 < l.getD j 0
  | [], j, h => by simp [argminIdx] at h
  | [_], j, h => by simp [argminIdx] at h
  | x :: y :: t, j, h => by
    by_cases hx : x ≤ (y :: t).getD (argminIdx (y :: t)) 0
    · rw [argminIdx, if_pos hx] at h
      simp at h
    · rw [argminIdx, if_neg hx] at h ⊢
      cases j with
      | zero =>
        simp only [List.getD_cons_succ, List.getD_cons_zero]
        exact Nat.lt_of_not_le hx
      | succ k =>
        have hk : k < argminIdx (y :: t) := by omega
        simpa using argminIdx_first_min (y :: t) k hk

/-! ### Walks and their weights -/

theorem isWalk_iff (g : Graph) : ∀ l : List String,
    isWalk g l ↔ l ≠ [] ∧ (∀ x ∈ l, x ∈ g.nodes) ∧
      List.Chain' (fun u v => (edgeWeight? g u v).isSome = true) l
  | [] => by simp [isWalk, isWalkB]
  | [x] => by simp [isWalk, isWalkB]
  | x :: y :: t => by
    have ih := isWalk_iff g (y :: t)
    rw [isWalk, isWalkB]
    rw [isWalk] at ih
    simp only [Bool.and_eq_true] at *
    constructor
    · rintro ⟨⟨hx, he⟩, hw⟩
      obtain ⟨-, hmem, hch⟩ := ih.mp hw
      refine ⟨by simp, ?_, ?_⟩
      · intro z hz
        rcases List.mem_cons.mp hz with rfl | hz
        · simpa using hx
        · exact hmem z hz
      · exact List.chain'_cons.mpr ⟨he, hch⟩
    · rintro ⟨-, hmem, hch⟩
      obtain ⟨he, hch2⟩ := List.chain'_cons.mp hch
      refine ⟨⟨by simpa using hmem x (by simp), he⟩, ?_⟩
      refine ih.mpr ⟨by simp, ?_, hch2⟩
      intro z hz
      exact hmem z (List.mem_cons_of_mem _ hz)

theorem isWalk_ne_nil {g : Graph} {l : List String} (h : isWalk g l) : l ≠ [] :=
  ((isWalk_iff g l).mp h).1

theorem isWalk_mem_nodes {g : Graph} {l : List String} (h : isWalk g l) :
    ∀ x ∈ l, x ∈ g.nodes :=
  ((isWalk_iff g l).mp h).2.1

theorem isWalk_singleton {g : Graph} {x : String} (h : x ∈ g.nodes) :
    isWalk g [x] := by
  rw [isWalk_iff]
  simpa using h

theorem walkWeight_append_cons (g : Graph) :
    ∀ (A : List String) (x : String) (B : List String),
      walkWeight g (A ++ (x :: B)) =
        walkWeight g (A ++ [x]) + walkWeight g (x :: B)
  | [], x, B => by simp [walkWeight]
  | [a], x, B => by simp [walkWeight]
  | a :: c :: A, x, B => by
    have ih := walkWeight_append_cons g (c :: A) x B
    show (edgeWeight? g a c).getD 0 + walkWeight g ((c :: A) ++ (x :: B)) =
      ((edgeWeight? g a c).getD 0 + walkWeight g ((c :: A) ++ [x])) +
        walkWeight g (x :: B)
    rw [ih]
    omega

theorem walkWeight_join (g : Graph) {X p : List String} {c : String}
    (hX : X.getLast? = some c) (hp : p.head? = some c) :
    walkWeight g (X ++ p.tail) = walkWeight g X + walkWeight g p := by
  cases p with
  | nil => simp at hp
  | cons hd tl =>
    have hhd : hd = c := by simpa using hp
    subst hhd
    have hX2 : X.dropLast ++ [hd] = X :=
      List.dropLast_append_getLast? _ (by simp [hX])
    calc walkWeight g (X ++ (hd :: tl).tail)
        = walkWeight g (X.dropLast ++ [hd] ++ tl) := by rw [hX2]; rfl
      _ = walkWeight g (X.dropLast ++ (hd :: tl)) := by simp
      _ = walkWeight g (X.dropLast ++ [hd]) + walkWeight g (hd :: tl) :=
          walkWeight_append_cons g _ _ _
      _ = walkWeight g X + walkWeight g (hd :: tl) := by rw [hX2]

theorem isWalk_join (g : Graph) {X p : List String} {c : String}
    (hwX : isWalk g X) (hwp : isWalk g p)
    (hX : X.getLast? = some c) (hp : p.head? = some c) :
    isWalk g (X ++ p.tail) := by
  rw [isWalk_iff] at hwX hwp ⊢
  obtain ⟨hne, hmem, hch⟩ := hwX
  obtain ⟨-, hmem2, hch2⟩ := hwp
  cases p with
  | nil => simp at hp
  | cons hd tl =>
    have hhd : hd = c := by simpa using hp
    subst hhd
    refine ⟨by simp [hne], ?_, ?_⟩
    · intro z hz
      rcases List.mem_append.mp hz with h | h
      · exact hmem z h
      · exact hmem2 z (List.mem_cons_of_mem _ h)
    · obtain ⟨hbd, hch3⟩ := List.chain'_cons'.mp hch2
      refine List.Chain'.append hch hch3 ?_
      intro u hu v hv
      have hu2 : hd = u := by
        rw [hX] at hu
        simpa using hu
      subst hu2
      exact hbd v hv

/-! ### Every walk dominates a duplicate-free walk (cycle stripping) -/

theorem exists_dup_split {α : Type} : ∀ (l : List α), ¬ l.Nodup →
    ∃ l1 x l2 l3, l = l1 ++ (x :: (l2 ++ (x :: l3)))
  | [], h => absurd List.nodup_nil h
  | y :: t, h => by
    by_cases hy : y ∈ t
    · obtain ⟨t1, t2, rfl⟩ := List.append_of_mem hy
      exact ⟨[], y, t1, t2, by simp⟩
    · have hnt : ¬ t.Nodup := fun hn => h (List.nodup_cons.mpr ⟨hy, hn⟩)
      obtain ⟨l1, x, l2, l3, rfl⟩ := exists_dup_split t hnt
      exact ⟨y :: l1, x, l2, l3, by simp⟩

theorem isWalk_cut (g : Graph) {l1 l2 l3 : List String} {x : String}
    (hw : isWalk g (l1 ++ (x :: (l2 ++ (x :: l3))))) :
    isWalk g (l1 ++ (x :: l3)) := by
  rw [isWalk_iff] at hw ⊢
  obtain ⟨-, hmem, hch⟩ := hw
  refine ⟨by simp, ?_, ?_⟩
  · intro z hz
    apply hmem
    rcases List.mem_append.mp hz with h | h
    · exact List.mem_append.mpr (Or.inl h)
    · rcases List.mem_cons.mp h with rfl | h
      · simp
      · simp [h]
  · rw [List.chain'_append] at hch
    obtain ⟨hc1, hc2, hbd⟩ := hch
    have hsplit : x :: (l2 ++ (x :: l3)) = (x :: l2) ++ (x :: l3) := by simp
    rw [hsplit, List.chain'_append] at hc2
    obtain ⟨-, hc3, -⟩ := hc2
    rw [List.chain'_append]
    exact ⟨hc1, hc3, hbd⟩

theorem head?_cut {α : Type} (l1 : List α) (x : α) (l2 l3 : List α) :
    (l1 ++ (x :: l3)).head? = (l1 ++ (x :: (l2 ++ (x :: l3)))).head? := by
  cases l1 <;> simp

theorem getLast?_cut {α : Type} (l1 : List α) (x : α) (l2 l3 : List α) :
    (l1 ++ (x :: l3)).getLast? = (l1 ++ (x :: (l2 ++ (x :: l3)))).getLast? := by
  rw [List.getLast?_append_cons, List.getLast?_append_cons]
  have hsplit : x :: (l2 ++ (x :: l3)) = (x :: l2) ++ (x :: l3) := by simp
  rw [hsplit, List.getLast?_append_cons]

theorem walkWeight_cut_le (g : Graph) (l1 l3 : List String) (x : String)
    (l2 : List String) :
    walkWeight g (l1 ++ (x :: l3)) ≤
      walkWeight g (l1 ++ (x :: (l2 ++ (x :: l3)))) := by
  rw [walkWeight_append_cons g l1 x l3,
    walkWeight_append_cons g l1 x (l2 ++ (x :: l3))]
  have h2 : x :: (l2 ++ (x :: l3)) = (x :: l2) ++ (x :: l3) := by simp
  rw [h2, walkWeight_append_cons g (x :: l2) x l3]
  omega

theorem exists_nodup_walk (g : Graph) : ∀ (n : Nat) (l : List String),
    l.length ≤ n → isWalk g l →
    ∃ m, isWalk g m ∧ m.Nodup ∧ m.head? = l.head? ∧
      m.getLast? = l.getLast? ∧ walkWeight g m ≤ walkWeight g l := by
  intro n
  induction n with
  | zero =>
    intro l hlen hw
    have hnil : l = [] := List.length_eq_zero.mp (Nat.le_zero.mp hlen)
    subst hnil
    exact absurd rfl (isWalk_ne_nil hw)
  | succ n ih =>
    intro l hlen hw
    by_cases hnd : l.Nodup
    · exact ⟨l, hw, hnd, rfl, rfl, le_refl _⟩
    · obtain ⟨l1, x, l2, l3, rfl⟩ := exists_dup_split l hnd
      have hw2 : isWalk g (l1 ++ (x :: l3)) := isWalk_cut g hw
      have hlen2 : (l1 ++ (x :: l3)).length ≤ n := by
        simp only [List.length_append, List.length_cons] at hlen ⊢
        omega
      obtain ⟨m, h1, h2, h3, h4, h5⟩ := ih (l1 ++ (x :: l3)) hlen2 hw2
      refine ⟨m, h1, h2, ?_, ?_, ?_⟩
      · rw [h3, head?_cut l1 x l2 l3]
      · rw [h4, getLast?_cut l1 x l2 l3]
      · exact le_trans h5 (walkWeight_cut_le g l1 l3 x l2)

theorem strip_to_nodup (g : Graph) {l : List String} (hw : isWalk g l) :
    ∃ m, isWalk g m ∧ m.Nodup ∧ m.head? = l.head? ∧
      m.getLast? = l.getLast? ∧ walkWeight g m ≤ walkWeight g l :=
  exists_nodup_walk g l.length l (le_refl _) hw

/-! ### The brute-force candidate set -/

theorem mem_candidatePaths {g : Graph} {a b : String} {p : List String} :
    p ∈ candidatePaths g a b ↔
      p ∈ g.nodes.sublists.flatMap List.permutations' ∧ isWalk g p ∧
        p.head? = some a ∧ p.getLast? = some b := by
  unfold candidatePaths
  rw [List.mem_filter]
  simp [isWalk, Bool.and_eq_true, and_assoc]

theorem candidate_isWalk {g : Graph} {a b : String} {p : List String}
    (hp : p ∈ candidatePaths g a b) :
    isWalk g p ∧ p.head? = some a ∧ p.getLast? = some b :=
  (mem_candidatePaths.mp hp).2

theorem candidate_nodup {g : Graph} {a b : String} {p : List String}
    (hnd : g.nodes.Nodup) (hp : p ∈ candidatePaths g a b) : p.Nodup := by
  obtain ⟨hmem, -, -, -⟩ := mem_candidatePaths.mp hp
  obtain ⟨s, hs, hps⟩ := List.mem_flatMap.mp hmem
  have hperm : List.Perm p s := List.mem_permutations'.mp hps
  exact hperm.nodup_iff.mpr ((List.mem_sublists.mp hs).nodup hnd)

theorem candidate_complete {g : Graph} {p : List String} {a b : String}
    (hw : isWalk g p) (hpnd : p.Nodup)
    (ha : p.head? = some a) (hb : p.getLast? = some b) :
    p ∈ candidatePaths g a b := by
  rw [mem_candidatePaths]
  refine ⟨?_, hw, ha, hb⟩
  have hsub : p ⊆ g.nodes := fun z hz => isWalk_mem_nodes hw z hz
  obtain ⟨s, hs1, hs2⟩ := hpnd.subperm hsub
  exact List.mem_flatMap.mpr
    ⟨s, List.mem_sublists.mpr hs2, List.mem_permutations'.mpr hs1.symm⟩

/-! ### Properties of the shortest-path queries -/

theorem contains_and_iff {g : Graph} {a b : String} :
    (g.nodes.contains a && g.nodes.contains b) = true ↔
      a ∈ g.nodes ∧ b ∈ g.nodes := by
  simp

theorem spl_dist_ok_mem {g : Graph} {a b : String} {dd : Nat}
    (h : spl_dist g a b = .ok dd) : a ∈ g.nodes ∧ b ∈ g.nodes := by
  unfold spl_dist at h
  by_cases hc : (g.nodes.contains a && g.nodes.contains b) = true
  · exact contains_and_iff.mp hc
  · rw [if_neg hc] at h
    simp at h

theorem spl_dist_error_kinds {g : Graph} {a b : String} {e : Err}
    (h : spl_dist g a b = .error e) :
    e = Err.NodeNotFound ∨ e = Err.Unreachable := by
  unfold spl_dist at h
  by_cases hc : (g.nodes.contains a && g.nodes.contains b) = true
  · rw [if_pos hc] at h
    cases hm : listMin? ((candidatePaths g a b).map (walkWeight g)) with
    | none => rw [hm] at h; right; cases h; rfl
    | some dmin => rw [hm] at h; simp at h
  · rw [if_neg hc] at h
    left
    cases h
    rfl

theorem spl_dist_ok_spec {g : Graph} {a b : String} {dd : Nat}
    (h : spl_dist g a b = .ok dd) :
    (∃ p ∈ candidatePaths g a b, walkWeight g p = dd) ∧
      (∀ p ∈ candidatePaths g a b, dd ≤ walkWeight g p) := by
  unfold spl_dist at h
  by_cases hc : (g.nodes.contains a && g.nodes.contains b) = true
  · rw [if_pos hc] at h
    cases hm : listMin? ((candidatePaths g a b).map (walkWeight g)) with
    | none => rw [hm] at h; simp at h
    | some dmin =>
      rw [hm] at h
      have hdd : dmin = dd := by cases h; rfl
      subst hdd
      obtain ⟨hmem, hle⟩ := listMin?_spec _ _ hm
      constructor
      · obtain ⟨p, hp, hw⟩ := List.mem_map.mp hmem
        exact ⟨p, hp, hw⟩
      · intro p hp
        exact hle _ (List.mem_map.mpr ⟨p, hp, rfl⟩)
  · rw [if_neg hc] at h
    simp at h

theorem spl_path_eq_of_min {g : Graph} {a b : String} {dmin : Nat}
    (hc : (g.nodes.contains a && g.nodes.contains b) = true)
    (hm : listMin? ((candidatePaths g a b).map (walkWeight g)) = some dmin) :
    spl_path g a b =
      (match (candidatePaths g a b).find? (fun q => walkWeight g q == dmin) with
       | some p => Except.ok p
       | none => Except.error Err.Unreachable) := by
  unfold spl_path
  rw [if_pos hc, hm]

theorem spl_path_eq_err_of_none {g : Graph} {a b : String}
    (hc : (g.nodes.contains a && g.nodes.contains b) = true)
    (hm : listMin? ((candidatePaths g a b).map (walkWeight g)) = none) :
    spl_path g a b = .error .Unreachable := by
  unfold spl_path
  rw [if_pos hc, hm]

theorem spl_path_ok_of_dist_ok {g : Graph} {a b : String} {dd : Nat}
    (h : spl_dist g a b = .ok dd) : ∃ p, spl_path g a b = .ok p := by
  have hc : (g.nodes.contains a && g.nodes.contains b) = true := by
    rw [contains_and_iff]
    exact spl_dist_ok_mem h
  unfold spl_dist at h
  rw [if_pos hc] at h
  cases hm : listMin? ((candidatePaths g a b).map (walkWeight g)) with
  | none => rw [hm] at h; simp at h
  | some dmin =>
    obtain ⟨hmem, -⟩ := listMin?_spec _ _ hm
    obtain ⟨p, hp, hw⟩ := List.mem_map.mp hmem
    have hfind : ((candidatePaths g a b).find?
        (fun q => walkWeight g q == dmin)).isSome := by
      rw [List.find?_isSome]
      exact ⟨p, hp, by simp [hw]⟩
    have heq := spl_path_eq_of_min hc hm
    cases hf : (candidatePaths g a b).find? (fun q => walkWeight g q == dmin) with
    | none => rw [hf] at hfind; simp at hfind
    | some q => exact ⟨q, by rw [heq, hf]⟩

theorem spl_path_ok_spec {g : Graph} {a b : String} {p : List String}
    (h : spl_path g a b = .ok p) :
    p ∈ candidatePaths g a b ∧ spl_dist g a b = .ok (walkWeight g p) := by
  by_cases hc : (g.nodes.contains a && g.nodes.contains b) = true
  · cases hm : listMin? ((candidatePaths g a b).map (walkWeight g)) with
    | none =>
      rw [spl_path_eq_err_of_none hc hm] at h
      simp at h
    | some dmin =>
      rw [spl_path_eq_of_min hc hm] at h
      cases hf : (candidatePaths g a b).find? (fun q => walkWeight g q == dmin) with
      | none => rw [hf] at h; simp at h
      | some q =>
        rw [hf] at h
        have hqp : q = p := by simpa using h
        subst hqp
        have hqw : walkWeight g q = dmin := by
          have := List.find?_some hf
          simpa using this
        refine ⟨List.mem_of_find?_eq_some hf, ?_⟩
        unfold spl_dist
        rw [if_pos hc, hm, hqw]
  · unfold spl_path at h
    rw [if_neg hc] at h
    simp at h

theorem spl_path_ok_props {g : Graph} {a b : String} {p : List String}
    (h : spl_path g a b = .ok p) :
    isWalk g p ∧ p.head? = some a ∧ p.getLast? = some b ∧
      spl_dist g a b = .ok (walkWeight g p) := by
  obtain ⟨hmem, hdist⟩ := spl_path_ok_spec h
  obtain ⟨hw, ha, hb⟩ := candidate_isWalk hmem
  exact ⟨hw, ha, hb, hdist⟩

theorem spl_path_ok_nodup {g : Graph} {a b : String} {p : List String}
    (hnd : g.nodes.Nodup) (h : spl_path g a b = .ok p) : p.Nodup :=
  candidate_nodup hnd (spl_path_ok_spec h).1

theorem spl_dist_nodeNotFound_iff {g : Graph} {a b : String} :
    spl_dist g a b = .error .NodeNotFound ↔ ¬ (a ∈ g.nodes ∧ b ∈ g.nodes) := by
  constructor
  · intro h hmem
    unfold spl_dist at h
    rw [if_pos (contains_and_iff.mpr hmem)] at h
    cases hm : listMin? ((candidatePaths g a b).map (walkWeight g)) with
    | none => rw [hm] at h; cases h
    | some dmin => rw [hm] at h; cases h
  · intro hmem
    unfold spl_dist
    rw [if_neg (fun hc => hmem (contains_and_iff.mp hc))]

theorem spl_dist_unreachable_iff {g : Graph} {a b : String} :
    spl_dist g a b = .error .Unreachable ↔
      a ∈ g.nodes ∧ b ∈ g.nodes ∧ ¬ Reachable g a b := by
  constructor
  · intro h
    by_cases hmem : a ∈ g.nodes ∧ b ∈ g.nodes
    · refine ⟨hmem.1, hmem.2, ?_⟩
      unfold spl_dist at h
      rw [if_pos (contains_and_iff.mpr hmem)] at h
      cases hm : listMin? ((candidatePaths g a b).map (walkWeight g)) with
      | some dmin => rw [hm] at h; cases h
      | none =>
        have hnil : candidatePaths g a b = [] := by
          have := (listMin?_eq_none_iff _).mp hm
          exact List.map_eq_nil_iff.mp this
        rintro ⟨l, hw, hh, hl⟩
        obtain ⟨m, hmw, hmnd, hmh, hml, -⟩ := strip_to_nodup g hw
        have : m ∈ candidatePaths g a b :=
          candidate_complete hmw hmnd (hmh.trans hh) (hml.trans hl)
        rw [hnil] at this
        simp at this
    · exfalso
      have := spl_dist_nodeNotFound_iff.mpr hmem
      rw [this] at h
      cases h
  · rintro ⟨ha, hb, hreach⟩
    unfold spl_dist
    rw [if_pos (contains_and_iff.mpr ⟨ha, hb⟩)]
    cases hm : listMin? ((candidatePaths g a b).map (walkWeight g)) with
    | none => rfl
    | some dmin =>
      exfalso
      obtain ⟨hmem, -⟩ := listMin?_spec _ _ hm
      obtain ⟨p, hp, -⟩ := List.mem_map.mp hmem
      obtain ⟨hw, hh, hl⟩ := candidate_isWalk hp
      exact hreach ⟨p, hw, hh, hl⟩

/-! ### The distance-collection loop -/

theorem mapDistances_ok_length {g : Graph} {curr : String} :
    ∀ {l : List String} {ds : List Nat},
      mapDistances g curr l = .ok ds → ds.length = l.length := by
  intro l
  induction l with
  | nil =>
    intro ds h
    unfold mapDistances at h
    simp at h
    simp [h]
  | cons x t ih =>
    intro ds h
    unfold mapDistances at h
    cases hd : spl_dist g curr x with
    | error e => rw [hd] at h; simp at h
    | ok dd =>
      rw [hd] at h
      cases hm : mapDistances g curr t with
      | error e => rw [hm] at h; simp at h
      | ok ds0 =>
        rw [hm] at h
        have hds : dd :: ds0 = ds := by simpa using h
        subst hds
        simp [ih hm]

theorem mapDistances_ok_get {g : Graph} {curr : String} :
    ∀ {l : List String} {ds : List Nat},
      mapDistances g curr l = .ok ds →
      ∀ i, i < l.length → spl_dist g curr (l.getD i "") = .ok (ds.getD i 0) := by
  intro l
  induction l with
  | nil =>
    intro ds h i hi
    simp at hi
  | cons x t ih =>
    intro ds h i hi
    unfold mapDistances at h
    cases hd : spl_dist g curr x with
    | error e => rw [hd] at h; simp at h
    | ok dd =>
      rw [hd] at h
      cases hm : mapDistances g curr t with
      | error e => rw [hm] at h; simp at h
      | ok ds0 =>
        rw [hm] at h
        have hds : dd :: ds0 = ds := by simpa using h
        subst hds
        cases i with
        | zero => simpa using hd
        | succ k =>
          simp only [List.getD_cons_succ]
          exact ih hm k (by simpa using hi)

theorem mapDistances_ok_curr_mem {g : Graph} {curr : String} {x : String}
    {t : List String} {ds : List Nat}
    (h : mapDistances g curr (x :: t) = .ok ds) : curr ∈ g.nodes := by
  unfold mapDistances at h
  cases hd : spl_dist g curr x with
  | error e => rw [hd] at h; simp at h
  | ok dd => exact (spl_dist_ok_mem hd).1

theorem mapDistances_error_of_mem {g : Graph} {curr : String} :
    ∀ {l : List String} {x : String} {e0 : Err}, x ∈ l →
      spl_dist g curr x = .error e0 →
      ∃ e, mapDistances g curr l = .error e ∧
        (e = Err.NodeNotFound ∨ e = Err.Unreachable) := by
  intro l
  induction l with
  | nil =>
    intro x e0 hx
    simp at hx
  | cons y t ih =>
    intro x e0 hx herr
    unfold mapDistances
    cases hd : spl_dist g curr y with
    | error e1 => exact ⟨e1, rfl, spl_dist_error_kinds hd⟩
    | ok dd =>
      have hxt : x ∈ t := by
        rcases List.mem_cons.mp hx with rfl | hxt
        · rw [hd] at herr; cases herr
        · exact hxt
      obtain ⟨e, he, hek⟩ := ih hxt herr
      rw [he]
      exact ⟨e, rfl, hek⟩

/-! ### Stitching -/

theorem stitchDedup_append_one (f : List (List String)) (s : List String) :
    stitchDedup (f ++ [s]) = stitchStep (stitchDedup f) s := by
  unfold stitchDedup
  rw [List.foldl_append]
  rfl

theorem stitchStep_nil (acc : List String) : stitchStep acc [] = acc := by
  unfold stitchStep
  by_cases h : acc.getLast? = ([] : List String).head?
  · rw [if_pos h]
    simp
  · rw [if_neg h]
    simp

theorem stitchStep_of_ne {acc seg : List String} (h : acc.getLast? ≠ seg.head?) :
    stitchStep acc seg = acc ++ seg := if_neg h

theorem stitchStep_of_eq {acc seg : List String} (h : acc.getLast? = seg.head?) :
    stitchStep acc seg = acc ++ seg.tail := if_pos h

/-! ### Duplicate-free paths: head, last and penultimate nodes -/

theorem nodup_eq_singleton {α : Type} {p : List α} {c : α} (hnd : p.Nodup)
    (hh : p.head? = some c) (hl : p.getLast? = some c) : p = [c] := by
  cases p with
  | nil => simp at hh
  | cons x t =>
    have hx : x = c := by simpa using hh
    subst hx
    cases t with
    | nil => rfl
    | cons y u =>
      exfalso
      have hl2 : (y :: u).getLast? = some x := by
        rw [List.getLast?_cons_cons] at hl
        exact hl
      have hmem : x ∈ y :: u := mem_of_getLast?_eq_some hl2
      exact (List.nodup_cons.mp hnd).1 hmem

theorem dropLast_getLast?_ne {α : Type} {p : List α} {c : α} (hnd : p.Nodup)
    (hl : p.getLast? = some c) : p.dropLast.getLast? ≠ some c := by
  intro hcon
  have hmem : c ∈ p.dropLast := mem_of_getLast?_eq_some hcon
  have hsplit : p.dropLast ++ [c] = p :=
    List.dropLast_append_getLast? _ (by simp [hl])
  rw [← hsplit] at hnd
  obtain ⟨-, -, hdisj⟩ := List.nodup_append.mp hnd
  exact hdisj hmem (by simp)

theorem head?_dropLast {α : Type} {p : List α} {c : α} (hh : p.head? = some c)
    (h2 : 2 ≤ p.length) : p.dropLast.head? = some c := by
  cases p with
  | nil => simp at hh
  | cons x t =>
    cases t with
    | nil => simp at h2
    | cons y u =>
      have hx : x = c := by simpa using hh
      subst hx
      simp [List.dropLast_cons₂]

theorem length_two_of_ne {α : Type} {p : List α} {a b : α}
    (hh : p.head? = some a) (hl : p.getLast? = some b) (hne : a ≠ b) :
    2 ≤ p.length := by
  cases p with
  | nil => simp at hh
  | cons x t =>
    cases t with
    | nil =>
      have hx : x = a := by simpa using hh
      have hx2 : x = b := by simpa using hl
      exact absurd (hx ▸ hx2) hne
    | cons y u => simp

/-! ### Small helpers for the loop analysis -/

theorem walkWeight_singleton (g : Graph) (x : String) : walkWeight g [x] = 0 := rfl

theorem append_head_split {α : Type} {seg : List α} {c : α} (L : List α)
    (h : seg.head? = some c) : L ++ seg = (L ++ [c]) ++ seg.tail := by
  cases seg with
  | nil => simp at h
  | cons x t =>
    have hx : x = c := by simpa using h
    subst hx
    simp

theorem dropLast_ne_nil_of_two {α : Type} {p : List α} (h : 2 ≤ p.length) :
    p.dropLast ≠ [] := by
  have hl : p.dropLast.length = p.length - 1 := List.length_dropLast p
  intro hc
  rw [hc] at hl
  simp at hl
  omega

theorem dropLast_append_last {α : Type} {p : List α} {s : α}
    (h : p.getLast? = some s) : p.dropLast ++ [s] = p :=
  List.dropLast_append_getLast? _ (by simp [h])

theorem sum_append_singleton (d : List Nat) (x : Nat) :
    (d ++ [x]).sum = d.sum + x := by simp

/-- On success, the final state of the `homes` list carried through the loop
is the empty list (the loop's guard is exactly `homes = []`). -/
theorem nnLoop_ok_final_nil {g : Graph} :
    ∀ (fuel : Nat) (curr : String) (homes : List String) (gb : Bool)
      (d : List Nat) (p : List String) (f : List (List String))
      (D : List Nat) (P : List String) (F : List (List String)) (H : List String),
      nnLoop g fuel curr homes gb d p f = .ok (D, P, F, H) → H = [] := by
  intro fuel
  induction fuel with
  | zero =>
    intro curr homes gb d p f D P F H h
    simp [nnLoop] at h
  | succ n ih =>
    intro curr homes gb d p f D P F H h
    rw [nnLoop] at h
    by_cases hne : homes = []
    · rw [if_pos hne] at h
      simp only [Except.ok.injEq, Prod.mk.injEq] at h
      obtain ⟨-, -, -, h4⟩ := h
      rw [← h4, hne]
    · rw [if_neg hne] at h
      split at h
      · simp at h
      · split at h
        · simp at h
        · exact ih _ _ _ _ _ _ _ _ _ _ h

/-! ### The loop invariant of `nearest_neighbor` -/

/-- Invariant while the tour is still outbound (`going_back = False`): the
stitched full-path log extended by the current node is a walk whose weight is
the sum of the logged distances, and the stitched log does not already end at
the current node (each outbound leg was appended with its final node
removed). -/
def InvOut (g : Graph) (curr : String) (f : List (List String)) (s : Nat) : Prop :=
  isWalk g (stitchDedup f ++ [curr]) ∧
  (stitchDedup f).getLast? ≠ some curr ∧
  walkWeight g (stitchDedup f ++ [curr]) = s

/-- Invariant once the depot has been re-inserted (`going_back = True`): the
stitched full-path log is a walk ending at the current node with weight the
sum of the logged distances. -/
def InvBack (g : Graph) (curr : String) (f : List (List String)) (s : Nat) : Prop :=
  stitchDedup f ≠ [] ∧
  (stitchDedup f).getLast? = some curr ∧
  isWalk g (stitchDedup f) ∧
  walkWeight g (stitchDedup f) = s

/-- Master invariant lemma for the tour loop: on success the stitched,
seam-deduplicated full path is a walk whose weight is the sum of the logged
distances, and the last logged segment ends at the hardcoded
`"Auckland Airport"` node. -/
theorem nnLoop_master {g : Graph} (hnd : g.nodes.Nodup) :
    ∀ (fuel : Nat) (curr : String) (homes : List String) (gb : Bool)
      (d : List Nat) (p : List String) (f : List (List String))
      (D : List Nat) (P : List String) (F : List (List String)) (H : List String),
      nnLoop g fuel curr homes gb d p f = .ok (D, P, F, H) →
      ((gb = false ∧ homes ≠ [] ∧ InvOut g curr f d.sum) ∨
       (gb = true ∧ homes = ["Auckland Airport"] ∧ InvBack g curr f d.sum)) →
      isWalk g (stitchDedup F) ∧ walkWeight g (stitchDedup F) = D.sum ∧
      ∃ F1 q, F = F1 ++ [q] ∧ q ≠ [] ∧ isWalk g q ∧
        q.getLast? = some "Auckland Airport" := by
  intro fuel
  induction fuel with
  | zero =>
    intro curr homes gb d p f D P F H h hinv
    simp [nnLoop] at h
  | succ n ih =>
    intro curr homes gb d p f D P F H h hinv
    have hne : homes ≠ [] := by
      rcases hinv with ⟨-, hne, -⟩ | ⟨-, hh, -⟩
      · exact hne
      · rw [hh]; simp
    rw [nnLoop, if_neg hne] at h
    split at h
    next e heq => simp at h
    next all_dist heq =>
      split at h
      next e heq2 => simp at h
      next seg heq2 =>
        have hlen_ds : all_dist.length = homes.length := mapDistances_ok_length heq
        have hdsne : all_dist ≠ [] := by
          intro hc
          rw [hc] at hlen_ds
          exact hne (List.length_eq_zero.mp hlen_ds.symm)
        have hilt : argminIdx all_dist < homes.length := by
          rw [← hlen_ds]
          exact argminIdx_lt_length all_dist hdsne
        have hsel_mem : homes.getD (argminIdx all_dist) "" ∈ homes :=
          getD_mem _ hilt
        have hdist_sel : spl_dist g curr (homes.getD (argminIdx all_dist) "") =
            .ok (all_dist.getD (argminIdx all_dist) 0) :=
          mapDistances_ok_get heq _ hilt
        rcases hinv with ⟨hgb, -, hio⟩ | ⟨hgb, hhomes, hib⟩
        · -- outbound
          subst hgb
          by_cases hlen1 : homes.length = 1
          · -- transition: the depot is re-inserted after this selection
            obtain ⟨x, rfl⟩ := List.length_eq_one.mp hlen1
            obtain ⟨d0, hds⟩ := List.length_eq_one.mp (by simpa using hlen_ds)
            subst hds
            rw [if_neg (by simp)] at heq2
            have heq3 : spl_path g curr x = .ok seg := heq2
            have hdist2 : spl_dist g curr x = .ok d0 := hdist_sel
            have h2 : nnLoop g n x ((x :: ["Auckland Airport"]).erase x) true
                (d ++ [d0]) (p ++ [curr]) (f ++ [seg]) = .ok (D, P, F, H) := h
            rw [List.erase_cons_head] at h2
            obtain ⟨hwseg, hheadseg, hlastseg, hdseg⟩ := spl_path_ok_props heq3
            have hwval : walkWeight g seg = d0 := by
              have hh := hdist2.symm.trans hdseg
              simpa using hh.symm
            obtain ⟨hwalkO, hlastO, hwO⟩ := hio
            have hstep : stitchDedup (f ++ [seg]) = stitchDedup f ++ seg := by
              rw [stitchDedup_append_one,
                stitchStep_of_ne (fun hc => hlastO (hc.trans hheadseg))]
            have hsplit2 : stitchDedup f ++ seg =
                (stitchDedup f ++ [curr]) ++ seg.tail :=
              append_head_split _ hheadseg
            refine ih _ _ _ _ _ _ _ _ _ _ h2 (Or.inr ⟨rfl, rfl, ?_, ?_, ?_, ?_⟩)
            · rw [hstep]
              intro hc
              exact isWalk_ne_nil hwseg (List.append_eq_nil.mp hc).2
            · rw [hstep, List.getLast?_append_of_ne_nil _ (isWalk_ne_nil hwseg)]
              exact hlastseg
            · rw [hstep, hsplit2]
              exact isWalk_join g hwalkO hwseg (List.getLast?_concat _) hheadseg
            · rw [hstep, hsplit2,
                walkWeight_join g (List.getLast?_concat _) hheadseg, hwO, hwval,
                sum_append_singleton]
          · -- continue outbound
            rw [if_pos hlen1] at heq2
            cases hsp : spl_path g curr (homes.getD (argminIdx all_dist) "") with
            | error e =>
              rw [hsp] at heq2
              simp [Except.map] at heq2
            | ok pp =>
              rw [hsp] at heq2
              have hseg : seg = pp.dropLast := by
                simpa [Except.map] using heq2.symm
              subst hseg
              obtain ⟨hwpp, hheadpp, hlastpp, hdpp⟩ := spl_path_ok_props hsp
              have hppnd : pp.Nodup := spl_path_ok_nodup hnd hsp
              have hwval : walkWeight g pp =
                  all_dist.getD (argminIdx all_dist) 0 := by
                have hh := hdist_sel.symm.trans hdpp
                simpa using hh.symm
              obtain ⟨hwalkO, hlastO, hwO⟩ := hio
              have hlen0 : homes.length ≠ 0 :=
                fun hc => hne (List.length_eq_zero.mp hc)
              have hne2 : homes.erase (homes.getD (argminIdx all_dist) "") ≠ [] := by
                have hl := List.length_erase_of_mem hsel_mem
                intro hc
                rw [hc] at hl
                simp at hl
                omega
              have hcond : ¬ (false = false ∧ homes.length = 1) := by
                simp [hlen1]
              rw [if_neg hcond] at h
              rw [if_neg hcond] at h
              by_cases hsc : homes.getD (argminIdx all_dist) "" = curr
              · -- zero-length leg: the selected stop is the current node
                have hpp1 : pp = [curr] :=
                  nodup_eq_singleton hppnd hheadpp (by rw [hlastpp, hsc])
                have hdd0 : all_dist.getD (argminIdx all_dist) 0 = 0 := by
                  rw [← hwval, hpp1]
                  rfl
                have hsegnil : pp.dropLast = ([] : List String) := by
                  rw [hpp1]
                  rfl
                have hstep : stitchDedup (f ++ [pp.dropLast]) = stitchDedup f := by
                  rw [hsegnil, stitchDedup_append_one, stitchStep_nil]
                refine ih _ _ _ _ _ _ _ _ _ _ h (Or.inl ⟨rfl, hne2, ?_, ?_, ?_⟩)
                · rw [hstep, hsc]
                  exact hwalkO
                · rw [hstep, hsc]
                  exact hlastO
                · rw [hstep, hsc, hdd0, sum_append_singleton, hwO]
                  omega
              · -- genuine leg: append the path with its final node removed
                have hcn : curr ≠ homes.getD (argminIdx all_dist) "" :=
                  fun hc => hsc hc.symm
                have hpplen : 2 ≤ pp.length := length_two_of_ne hheadpp hlastpp hcn
                have hheadseg : pp.dropLast.head? = some curr :=
                  head?_dropLast hheadpp hpplen
                have hsegne : pp.dropLast ≠ [] := dropLast_ne_nil_of_two hpplen
                have hstep : stitchDedup (f ++ [pp.dropLast]) =
                    stitchDedup f ++ pp.dropLast := by
                  rw [stitchDedup_append_one,
                    stitchStep_of_ne (fun hc => hlastO (hc.trans hheadseg))]
                have hjoin : stitchDedup f ++ pp.dropLast ++
                    [homes.getD (argminIdx all_dist) ""] =
                    (stitchDedup f ++ [curr]) ++ pp.tail := by
                  rw [List.append_assoc (stitchDedup f) pp.dropLast,
                    dropLast_append_last hlastpp]
                  exact append_head_split _ hheadpp
                refine ih _ _ _ _ _ _ _ _ _ _ h (Or.inl ⟨rfl, hne2, ?_, ?_, ?_⟩)
                · rw [hstep, hjoin]
                  exact isWalk_join g hwalkO hwpp (List.getLast?_concat _) hheadpp
                · rw [hstep, List.getLast?_append_of_ne_nil _ hsegne]
                  exact dropLast_getLast?_ne hppnd hlastpp
                · rw [hstep, hjoin,
                    walkWeight_join g (List.getLast?_concat _) hheadpp, hwO,
                    hwval, sum_append_singleton]
        · -- returning to the depot: this is the final leg
          subst hgb
          subst hhomes
          obtain ⟨d0, hds⟩ := List.length_eq_one.mp (by simpa using hlen_ds)
          subst hds
          rw [if_neg (by simp)] at heq2
          have heq3 : spl_path g curr "Auckland Airport" = .ok seg := heq2
          have hdist2 : spl_dist g curr "Auckland Airport" = .ok d0 := hdist_sel
          have h2 : nnLoop g n "Auckland Airport"
              ((["Auckland Airport"] : List String).erase "Auckland Airport") true
              (d ++ [d0]) (p ++ [curr]) (f ++ [seg]) = .ok (D, P, F, H) := h
          rw [List.erase_cons_head] at h2
          cases n with
          | zero => simp [nnLoop] at h2
          | succ m =>
            rw [nnLoop, if_pos rfl] at h2
            simp only [Except.ok.injEq, Prod.mk.injEq] at h2
            obtain ⟨hD, hP, hF, hH⟩ := h2
            subst hD
            subst hF
            obtain ⟨hwseg, hheadseg, hlastseg, hdseg⟩ := spl_path_ok_props heq3
            have hwval : walkWeight g seg = d0 := by
              have hh := hdist2.symm.trans hdseg
              simpa using hh.symm
            obtain ⟨hLne, hLlast, hLwalk, hLw⟩ := hib
            have hstep : stitchDedup (f ++ [seg]) = stitchDedup f ++ seg.tail := by
              rw [stitchDedup_append_one,
                stitchStep_of_eq (hLlast.trans hheadseg.symm)]
            refine ⟨?_, ?_, f, seg, rfl, isWalk_ne_nil hwseg, hwseg, hlastseg⟩
            · rw [hstep]
              exact isWalk_join g hLwalk hwseg hLlast hheadseg
            · rw [hstep, walkWeight_join g hLlast hheadseg, hLw, hwval,
                sum_append_singleton]

/-! ### Unfolding `nearest_neighbor` -/

theorem nearest_neighbor_cons (g : Graph) (dep : String) (rest : List String) :
    nearest_neighbor g (dep :: rest) =
      (match nnLoop g ((dep :: rest).length + 2) dep
          ((dep :: rest).erase dep) false [] [] [] with
       | Except.error e => Except.error e
       | Except.ok (dist_min, path_homes, path_full, hfin) =>
         Except.ok (dist_min, path_homes ++ [dep], path_full, hfin)) := rfl

theorem nearest_neighbor_ok_destruct {g : Graph} {dep : String}
    {rest : List String} {D : List Nat} {P : List String}
    {F : List (List String)} {H : List String}
    (h : nearest_neighbor g (dep :: rest) = .ok (D, P, F, H)) :
    ∃ P0, nnLoop g ((dep :: rest).length + 2) dep rest false [] [] [] =
      .ok (D, P0, F, H) ∧ P = P0 ++ [dep] := by
  rw [nearest_neighbor_cons, List.erase_cons_head] at h
  cases hl : nnLoop g ((dep :: rest).length + 2) dep rest false [] [] [] with
  | error e => rw [hl] at h; simp at h
  | ok r =>
    obtain ⟨D0, P0, F0, H0⟩ := r
    rw [hl] at h
    simp only [Except.ok.injEq, Prod.mk.injEq] at h
    obtain ⟨hD, hP, hF, hH⟩ := h
    subst hD
    subst hF
    subst hH
    exact ⟨P0, rfl, hP.symm⟩

theorem nnLoop_ok_curr_mem {g : Graph} {fuel : Nat} {curr x : String}
    {t : List String} {gb : Bool} {d : List Nat} {p : List String}
    {f : List (List String)} {D : List Nat} {P : List String}
    {F : List (List String)} {H : List String}
    (h : nnLoop g fuel curr (x :: t) gb d p f = .ok (D, P, F, H)) :
    curr ∈ g.nodes := by
  cases fuel with
  | zero => simp [nnLoop] at h
  | succ n =>
    rw [nnLoop, if_neg (by simp)] at h
    split at h
    next e heq => simp at h
    next all_dist heq => exact mapDistances_ok_curr_mem heq

theorem nnLoop_error_of_mapDistances {g : Graph} {fuel : Nat} {curr : String}
    {homes : List String} {gb : Bool} {d : List Nat} {p : List String}
    {f : List (List String)} {e : Err}
    (hne : homes ≠ []) (hmd : mapDistances g curr homes = .error e) :
    nnLoop g (fuel + 1) curr homes gb d p f = .error e := by
  rw [nnLoop, if_neg hne, hmd]

theorem nearest_neighbor_error_of_bad_stop {g : Graph} {dep x : String}
    {rest : List String} {e0 : Err} (hx : x ∈ rest)
    (hsp : spl_dist g dep x = .error e0) :
    ∃ e, nearest_neighbor g (dep :: rest) = .error e ∧
      (e = Err.NodeNotFound ∨ e = Err.Unreachable) := by
  obtain ⟨e, hmd, hek⟩ := mapDistances_error_of_mem hx hsp
  refine ⟨e, ?_, hek⟩
  have hne : rest ≠ [] := List.ne_nil_of_mem hx
  rw [nearest_neighbor_cons, List.erase_cons_head]
  have hfuel : (dep :: rest).length + 2 = (rest.length + 2) + 1 := by
    simp [List.length_cons]
  rw [hfuel, nnLoop_error_of_mapDistances hne hmd]

/-! ### Region partitioning -/

theorem pyIndex?_eq_none_of_not_mem {x : String} :
    ∀ {l : List String}, x ∉ l → pyIndex? l x = none := by
  intro l
  induction l with
  | nil => intro h; rfl
  | cons y t ih =>
    intro h
    have hyx : ¬ (y = x) := by
      intro hc
      exact h (by rw [hc]; exact List.mem_cons_self x t)
    have ht : x ∉ t := fun hm => h (List.mem_cons_of_mem _ hm)
    show (if y = x then some 0 else (pyIndex? t x).map (· + 1)) = none
    rw [if_neg hyx, ih ht]
    rfl

theorem pyIndex?_cons_self (x : String) (t : List String) :
    pyIndex? (x :: t) x = some 0 := by
  show (if x = x then some 0 else (pyIndex? t x).map (· + 1)) = some 0
  rw [if_pos rfl]

theorem pyIndex?_append_of_not_mem {x : String} :
    ∀ {A : List String} (B : List String), x ∉ A →
      pyIndex? (A ++ B) x = (pyIndex? B x).map (· + A.length) := by
  intro A
  induction A with
  | nil =>
    intro B h
    cases hpb : pyIndex? B x <;> simp [hpb]
  | cons y t ih =>
    intro B h
    have hyx : ¬ (y = x) := by
      intro hc
      exact h (by rw [hc]; exact List.mem_cons_self x t)
    have ht : x ∉ t := fun hm => h (List.mem_cons_of_mem _ hm)
    rw [List.cons_append]
    show (if y = x then some 0 else (pyIndex? (t ++ B) x).map (· + 1)) =
      (pyIndex? B x).map (· + (y :: t).length)
    rw [if_neg hyx, ih B ht]
    cases hpb : pyIndex? B x
    · simp
    · simp [List.length_cons]
      omega

theorem partitionRegion_eq_of_found {rest_homes region : List String}
    {search : String} {i j : Nat}
    (h1 : pyIndex? region search = some i)
    (h2 : pyIndex? region.reverse search = some j) :
    partitionRegion rest_homes region search =
      .ok ("Auckland Airport" ::
        ((rest_homes.drop i).take (region.length - j - i))) := by
  unfold partitionRegion
  rw [h1, h2]

theorem partitionRegion_eq_of_none {rest_homes region : List String}
    {search : String} (h1 : pyIndex? region search = none)
    (h2 : pyIndex? region.reverse search = none) :
    partitionRegion rest_homes region search = .error .RegionNotFound := by
  unfold partitionRegion
  rw [h1, h2]

/-- C8: on a stop list whose region labels are grouped contiguously (here:
labels `pre ++ replicate |H2| lbl ++ post` aligned with stop names
`H1 ++ H2 ++ H3`), partitioning by `lbl` yields exactly the depot followed by
the contiguous slice `H2` of stops carrying that label, in order; and
partitioning by a label occurring nowhere fails with `RegionNotFound` (the
`ValueError` of Python's `list.index`). -/
theorem region_partition_spec (H1 H2 H3 pre post : List String)
    (lbl lbl2 : String) (hlen : H1.length = pre.length) (hne : H2 ≠ [])
    (hpre : lbl ∉ pre) (hpost : lbl ∉ post)
    (habs : lbl2 ∉ pre ++ (List.replicate H2.length lbl ++ post)) :
    partitionRegion (H1 ++ (H2 ++ H3))
        (pre ++ (List.replicate H2.length lbl ++ post)) lbl =
      .ok ("Auckland Airport" :: H2) ∧
    partitionRegion (H1 ++ (H2 ++ H3))
        (pre ++ (List.replicate H2.length lbl ++ post)) lbl2 =
      .error .RegionNotFound := by
  obtain ⟨h2, t2, rfl⟩ : ∃ h2 t2, H2 = h2 :: t2 := by
    cases H2 with
    | nil => exact absurd rfl hne
    | cons h2 t2 => exact ⟨h2, t2, rfl⟩
  constructor
  · have hidx1 : pyIndex? (pre ++ (List.replicate (h2 :: t2).length lbl ++ post))
        lbl = some pre.length := by
      rw [pyIndex?_append_of_not_mem _ hpre]
      rw [List.length_cons, List.replicate_succ, List.cons_append,
        pyIndex?_cons_self]
      simp
    have hrev : (pre ++ (List.replicate (h2 :: t2).length lbl ++ post)).reverse =
        post.reverse ++ (List.replicate (h2 :: t2).length lbl ++ pre.reverse) := by
      simp [List.reverse_append, List.reverse_replicate, List.append_assoc]
    have hidx3 : pyIndex? (pre ++ (List.replicate (h2 :: t2).length lbl ++
        post)).reverse lbl = some post.length := by
      rw [hrev, pyIndex?_append_of_not_mem _ (by simpa using hpost)]
      rw [List.length_cons, List.replicate_succ, List.cons_append,
        pyIndex?_cons_self]
      simp
    rw [partitionRegion_eq_of_found hidx1 hidx3]
    have hlens2 : (pre ++ (List.replicate (h2 :: t2).length lbl ++ post)).length -
        post.length - pre.length = (h2 :: t2).length := by
      simp [List.length_append, List.length_replicate]
      omega
    rw [hlens2]
    have hdrop : ((H1 ++ ((h2 :: t2) ++ H3)).drop pre.length) =
        (h2 :: t2) ++ H3 := by
      rw [← hlen]
      exact List.drop_left H1 _
    rw [hdrop, List.take_left]
  · have hnone1 : pyIndex? (pre ++ (List.replicate (h2 :: t2).length lbl ++ post))
        lbl2 = none := pyIndex?_eq_none_of_not_mem habs
    have hnone2 : pyIndex? (pre ++ (List.replicate (h2 :: t2).length lbl ++
        post)).reverse lbl2 = none := by
      apply pyIndex?_eq_none_of_not_mem
      simp only [List.mem_reverse]
      exact habs
    exact partitionRegion_eq_of_none hnone1 hnone2

/-! ### Concrete graphs used as test inputs -/

/-- The spec's concrete scenario graph (§8): depot `D`, stops `A`, `B`, a
fourth isolated node `C`, and edges `D-A`=5, `D-B`=9, `A-B`=3. -/
def scenarioGraph : Graph :=
  { nodes := ["D", "A", "B", "C"],
    edges := [("D", "A", 5), ("D", "B", 9), ("A", "B", 3)] }

/-- The same scenario graph with the depot named `Auckland Airport`. -/
def scenarioGraphAkl : Graph :=
  { nodes := ["Auckland Airport", "A", "B", "C"],
    edges := [("Auckland Airport", "A", 5), ("Auckland Airport", "B", 9),
      ("A", "B", 3)] }

/-- A triangle through `D`, `A` and `Auckland Airport`, all edges of
weight 1. -/
def triangleGraph : Graph :=
  { nodes := ["D", "A", "Auckland Airport"],
    edges := [("D", "A", 1), ("A", "Auckland Airport", 1),
      ("Auckland Airport", "D", 1)] }

/-- A two-node graph with one edge of weight 7. -/
def pairGraph : Graph :=
  { nodes := ["u", "v"], edges := [("u", "v", 7)] }

/-! ### The claims -/

/-- C9: for every successful `nearest_neighbor` run, the sum of the returned
per-leg distances equals the total edge-weight length of the stitched full
path: re-summing edge weights along the concatenation of the `full_path`
segments, deduplicated at seams, yields exactly `sum(distances)`. -/
theorem nn_distance_sum_matches_stitched_path (g : Graph) (homes : List String)
    (D : List Nat) (P : List String) (F : List (List String)) (H : List String)
    (hnd : g.nodes.Nodup) (h : nearest_neighbor g homes = .ok (D, P, F, H)) :
    walkWeight g (stitchDedup F) = D.sum := by
  cases homes with
  | nil => simp [nearest_neighbor] at h
  | cons dep rest =>
    obtain ⟨P0, hloop, hP⟩ := nearest_neighbor_ok_destruct h
    cases rest with
    | nil =>
      have h2 : Except.ok (([] : List Nat), ([] : List String),
          ([] : List (List String)), ([] : List String)) =
          Except.ok (D, P0, F, H) := hloop
      simp only [Except.ok.injEq, Prod.mk.injEq] at h2
      obtain ⟨hD, -, hF, -⟩ := h2
      rw [← hD, ← hF]
      rfl
    | cons x rest2 =>
      have hmem : dep ∈ g.nodes := nnLoop_ok_curr_mem hloop
      have hinv : InvOut g dep [] ([] : List Nat).sum := by
        refine ⟨?_, by simp [stitchDedup], rfl⟩
        simpa [stitchDedup] using isWalk_singleton hmem
      obtain ⟨-, hw, -⟩ :=
        nnLoop_master hnd _ dep (x :: rest2) false [] [] [] D P0 F H hloop
          (Or.inl ⟨rfl, by simp, hinv⟩)
      exact hw

set_option maxRecDepth 100000 in
/-- Witness for C9 at the concrete scenario graph. -/
theorem nn_distance_sum_matches_stitched_path_witness :
    walkWeight scenarioGraphAkl (stitchDedup
      [["Auckland Airport"], ["A", "B"], ["B", "A", "Auckland Airport"]]) =
      ([5, 3, 8] : List Nat).sum :=
  nn_distance_sum_matches_stitched_path scenarioGraphAkl
    ["Auckland Airport", "A", "B"] [5, 3, 8]
    ["Auckland Airport", "A", "B", "Auckland Airport"]
    [["Auckland Airport"], ["A", "B"], ["B", "A", "Auckland Airport"]] []
    (by decide) (by decide)

/-- C1 (amended): for every successful run on a stop list `dep :: rest`, the
final entry of the visited-stops log equals the first element `dep`; and the
final logged leg ends at the depot provided the depot's identifier is the
hardcoded `"Auckland Airport"` (the source closes the tour with
`homes.append('Auckland Airport')`, not with the saved first element). -/
theorem nn_closes_at_depot (g : Graph) (dep : String) (rest : List String)
    (D : List Nat) (P : List String) (F : List (List String)) (H : List String)
    (hnd : g.nodes.Nodup)
    (h : nearest_neighbor g (dep :: rest) = .ok (D, P, F, H)) :
    P.getLast? = some dep ∧
    (rest ≠ [] → dep = "Auckland Airport" →
      ∃ F1 q, F = F1 ++ [q] ∧ q ≠ [] ∧ isWalk g q ∧
        q.getLast? = some dep) := by
  obtain ⟨P0, hloop, hP⟩ := nearest_neighbor_ok_destruct h
  constructor
  · rw [hP]
    exact List.getLast?_concat _
  · intro hrest hdep
    subst hdep
    cases rest with
    | nil => exact absurd rfl hrest
    | cons x rest2 =>
      have hmem : ("Auckland Airport" : String) ∈ g.nodes :=
        nnLoop_ok_curr_mem hloop
      have hinv : InvOut g "Auckland Airport" [] ([] : List Nat).sum := by
        refine ⟨?_, by simp [stitchDedup], rfl⟩
        simpa [stitchDedup] using isWalk_singleton hmem
      obtain ⟨-, -, F1, q, hFq, hqne, hqw, hqlast⟩ :=
        nnLoop_master hnd _ _ (x :: rest2) false [] [] [] D P0 F H hloop
          (Or.inl ⟨rfl, by simp, hinv⟩)
      exact ⟨F1, q, hFq, hqne, hqw, hqlast⟩

set_option maxRecDepth 100000 in
/-- Witness for C1 (amended) at the concrete scenario graph. -/
theorem nn_closes_at_depot_witness :
    (["Auckland Airport", "A", "B", "Auckland Airport"] :
        List String).getLast? = some "Auckland Airport" ∧
    ((["A", "B"] : List String) ≠ [] →
      "Auckland Airport" = "Auckland Airport" →
      ∃ F1 q, [["Auckland Airport"], ["A", "B"],
          ["B", "A", "Auckland Airport"]] = F1 ++ [q] ∧ q ≠ [] ∧
        isWalk scenarioGraphAkl q ∧
        q.getLast? = some "Auckland Airport") :=
  nn_closes_at_depot scenarioGraphAkl "Auckland Airport" ["A", "B"] [5, 3, 8]
    ["Auckland Airport", "A", "B", "Auckland Airport"]
    [["Auckland Airport"], ["A", "B"], ["B", "A", "Auckland Airport"]] []
    (by decide) (by decide)

set_option maxRecDepth 100000 in
/-- C1 (counterexample): with depot `D` on a triangle that also contains an
`Auckland Airport` node, the run succeeds, the visited-stops log ends at `D`,
but the final leg is `["A", "Auckland Airport"]`, which does not end at the
first element `D`: the claim's final-leg conjunct fails for depots other than
`Auckland Airport`. -/
theorem nn_depot_leg_counterexample :
    nearest_neighbor triangleGraph ["D", "A"] =
      .ok ([1, 1], ["D", "A", "D"],
        [["D", "A"], ["A", "Auckland Airport"]], []) ∧
    (["A", "Auckland Airport"] : List String).getLast? ≠ some "D" := by
  constructor
  · decide
  · decide

/-- C10: `nearest_neighbor` mutates the caller's stop list in place; in this
embedding the final state of the list is returned as the fourth component,
and after every successful call it is empty. -/
theorem nn_empties_stop_list (g : Graph) (homes : List String)
    (D : List Nat) (P : List String) (F : List (List String)) (H : List String)
    (h : nearest_neighbor g homes = .ok (D, P, F, H)) : H = [] := by
  cases homes with
  | nil => simp [nearest_neighbor] at h
  | cons dep rest =>
    obtain ⟨P0, hloop, -⟩ := nearest_neighbor_ok_destruct h
    exact nnLoop_ok_final_nil _ _ _ _ _ _ _ _ _ _ _ hloop

set_option maxRecDepth 100000 in
/-- Witness for C10 at the concrete scenario graph. -/
theorem nn_empties_stop_list_witness : ([] : List String) = [] :=
  nn_empties_stop_list scenarioGraphAkl ["Auckland Airport", "A", "B"]
    [5, 3, 8] ["Auckland Airport", "A", "B", "Auckland Airport"]
    [["Auckland Airport"], ["A", "B"], ["B", "A", "Auckland Airport"]] []
    (by decide)

set_option maxRecDepth 100000 in
/-- C2 (counterexample): on the 4-node scenario graph with depot literally
named `D`, `nearest_neighbor` does not return the claimed
`([5,3,9], [D,A,B,D], ...)` at all: the closing step appends the hardcoded
stop `'Auckland Airport'`, which is not a node of this graph, so the run
fails with `NodeNotFound`. -/
theorem nn_scenario_counterexample :
    nearest_neighbor scenarioGraph ["D", "A", "B"] =
      .error Err.NodeNotFound := by
  decide

set_option maxRecDepth 100000 in
/-- C2 (amended): with the depot named `Auckland Airport` (the only depot
identifier the source supports), the stop list `[depot, A, B]` yields
`visited_stops = [depot, A, B, depot]` and `distances = [5, 3, 8]` — the
closing leg routes `B → A → depot` of shortest-path weight 8, not the direct
edge 9 — with total 16. -/
theorem nn_scenario_amended :
    nearest_neighbor scenarioGraphAkl ["Auckland Airport", "A", "B"] =
      .ok ([5, 3, 8], ["Auckland Airport", "A", "B", "Auckland Airport"],
        [["Auckland Airport"], ["A", "B"], ["B", "A", "Auckland Airport"]],
        []) ∧
    ([5, 3, 8] : List Nat).sum = 16 := by
  constructor
  · decide
  · decide

set_option maxRecDepth 100000 in
/-- C4 (code evaluated at the failing input): the leg into the last original
stop `B` is appended in full although the re-inserted depot is still
pending, so flattening the `full_path` segments (as `solve_region` does)
duplicates `B` at the seam between the last two legs. -/
theorem nn_seam_duplication_eval :
    nearest_neighbor scenarioGraphAkl ["Auckland Airport", "A", "B"] =
      .ok ([5, 3, 8], ["Auckland Airport", "A", "B", "Auckland Airport"],
        [["Auckland Airport"], ["A", "B"], ["B", "A", "Auckland Airport"]],
        []) ∧
    [["Auckland Airport"], ["A", "B"],
        ["B", "A", "Auckland Airport"]].flatten =
      ["Auckland Airport", "A", "B", "B", "A", "Auckland Airport"] := by
  constructor
  · decide
  · decide

set_option maxRecDepth 100000 in
/-- C6 (counterexample): a stop list holding only the depot does not fail at
all — `nearest_neighbor` returns the normal result `([], [depot], [])` (with
the consumed list empty), since the loop body never runs; no `EmptyStopList`
failure exists in the code. -/
theorem nn_singleton_counterexample :
    nearest_neighbor scenarioGraph ["D"] = .ok ([], ["D"], [], []) := by
  decide

/-- C6 (amended): `nearest_neighbor` fails only on the empty stop list — with
Python's `IndexError` from `homes[0]`, not a dedicated `EmptyStopList` — and
on a single-element list (just the depot) it returns the normal result
`([], [depot], [])` with the list consumed. -/
theorem nn_small_lists (g : Graph) (dep : String) :
    nearest_neighbor g [] = .error Err.IndexError ∧
    nearest_neighbor g [dep] = .ok ([], [dep], [], []) := by
  constructor
  · rfl
  · rw [nearest_neighbor_cons, List.erase_cons_head]
    have h1 : nnLoop g (([dep] : List String).length + 2) dep [] false [] [] [] =
        .ok ([], [], [], []) := rfl
    rw [h1]
    rfl

/-- C3: for every graph (weights embedded as naturals, hence non-negative)
and every reachable pair, the distance query returns exactly the minimum
cumulative edge weight over all source-to-target walks, and the path query
returns a walk from source to target whose edge weights sum to that
distance. -/
theorem shortest_path_correct (g : Graph) (a b : String)
    (hr : Reachable g a b) :
    ∃ dmin path,
      spl_dist g a b = .ok dmin ∧ spl_path g a b = .ok path ∧
      (∃ l, isWalk g l ∧ l.head? = some a ∧ l.getLast? = some b ∧
        walkWeight g l = dmin) ∧
      (∀ l, isWalk g l → l.head? = some a → l.getLast? = some b →
        dmin ≤ walkWeight g l) ∧
      path.head? = some a ∧ path.getLast? = some b ∧ isWalk g path ∧
      walkWeight g path = dmin := by
  obtain ⟨l0, hw0, hh0, hl0⟩ := hr
  have ha : a ∈ g.nodes := isWalk_mem_nodes hw0 a (mem_of_head?_eq_some hh0)
  have hb : b ∈ g.nodes := isWalk_mem_nodes hw0 b (mem_of_getLast?_eq_some hl0)
  obtain ⟨m, hmw, hmnd, hmh, hml, -⟩ := strip_to_nodup g hw0
  have hmc : m ∈ candidatePaths g a b :=
    candidate_complete hmw hmnd (hmh.trans hh0) (hml.trans hl0)
  have hcne : (candidatePaths g a b).map (walkWeight g) ≠ [] := by
    intro hc
    exact List.ne_nil_of_mem hmc (List.map_eq_nil_iff.mp hc)
  obtain ⟨dmin, hm⟩ := listMin?_isSome_of_ne_nil hcne
  have hdist : spl_dist g a b = .ok dmin := by
    unfold spl_dist
    rw [if_pos (contains_and_iff.mpr ⟨ha, hb⟩), hm]
  obtain ⟨path, hpath⟩ := spl_path_ok_of_dist_ok hdist
  obtain ⟨hwp, hph, hpl, hpd⟩ := spl_path_ok_props hpath
  have hpw : walkWeight g path = dmin := by
    have hh := hdist.symm.trans hpd
    simpa using hh.symm
  obtain ⟨hmin_mem, hmin_le⟩ := spl_dist_ok_spec hdist
  refine ⟨dmin, path, hdist, hpath, ?_, ?_, hph, hpl, hwp, hpw⟩
  · obtain ⟨q, hq, hqw⟩ := hmin_mem
    obtain ⟨hqwalk, hqh, hql⟩ := candidate_isWalk hq
    exact ⟨q, hqwalk, hqh, hql, hqw⟩
  · intro l hlw hlh hll
    obtain ⟨m2, h1, h2, h3, h4, h5⟩ := strip_to_nodup g hlw
    have hm2c : m2 ∈ candidatePaths g a b :=
      candidate_complete h1 h2 (h3.trans hlh) (h4.trans hll)
    exact le_trans (hmin_le m2 hm2c) h5

set_option maxRecDepth 100000 in
/-- Witness for C3 on a two-node graph. -/
theorem shortest_path_correct_witness :
    ∃ dmin path,
      spl_dist pairGraph "u" "v" = .ok dmin ∧
      spl_path pairGraph "u" "v" = .ok path ∧
      (∃ l, isWalk pairGraph l ∧ l.head? = some "u" ∧
        l.getLast? = some "v" ∧ walkWeight pairGraph l = dmin) ∧
      (∀ l, isWalk pairGraph l → l.head? = some "u" →
        l.getLast? = some "v" → dmin ≤ walkWeight pairGraph l) ∧
      path.head? = some "u" ∧ path.getLast? = some "v" ∧
      isWalk pairGraph path ∧ walkWeight pairGraph path = dmin :=
  shortest_path_correct pairGraph "u" "v"
    ⟨["u", "v"], by decide, rfl, rfl⟩

/-- C5: at each iteration, the tour loop selects (via `argminIdx`, the
embedding of `np.argmin`, applied to the distances computed by
`mapDistances`) a pending stop whose shortest-path distance from the current
node is minimal, and every pending stop strictly earlier in the pending
order has a strictly larger distance — first occurrence wins.  `nnLoop`
computes exactly `homes.getD (argminIdx all_dist) ""` from
`mapDistances g curr homes = .ok all_dist` each iteration, and the whole
tour is a function of the graph and stop list, hence deterministic. -/
theorem nn_selection_greedy (g : Graph) (curr : String) (homes : List String)
    (ds : List Nat) (hne : homes ≠ [])
    (h : mapDistances g curr homes = .ok ds) :
    homes.getD (argminIdx ds) "" ∈ homes ∧
    spl_dist g curr (homes.getD (argminIdx ds) "") =
      .ok (ds.getD (argminIdx ds) 0) ∧
    (∀ j, j < homes.length → ds.getD (argminIdx ds) 0 ≤ ds.getD j 0) ∧
    (∀ j, j < argminIdx ds → ds.getD (argminIdx ds) 0 < ds.getD j 0) := by
  have hlen : ds.length = homes.length := mapDistances_ok_length h
  have hdsne : ds ≠ [] := by
    intro hc
    rw [hc] at hlen
    exact hne (List.length_eq_zero.mp hlen.symm)
  have hilt : argminIdx ds < homes.length := by
    rw [← hlen]
    exact argminIdx_lt_length ds hdsne
  refine ⟨getD_mem _ hilt, mapDistances_ok_get h _ hilt, ?_,
    argminIdx_first_min ds⟩
  intro j hj
  exact argminIdx_le ds j (by rw [hlen]; exact hj)

set_option maxRecDepth 100000 in
/-- Witness for C5 at the concrete scenario graph. -/
theorem nn_selection_greedy_witness :
    (["A", "B"] : List String).getD (argminIdx [5, 8]) "" ∈
      (["A", "B"] : List String) ∧
    spl_dist scenarioGraphAkl "Auckland Airport"
      ((["A", "B"] : List String).getD (argminIdx [5, 8]) "") =
      .ok (([5, 8] : List Nat).getD (argminIdx [5, 8]) 0) ∧
    (∀ j, j < (["A", "B"] : List String).length →
      ([5, 8] : List Nat).getD (argminIdx [5, 8]) 0 ≤
        ([5, 8] : List Nat).getD j 0) ∧
    (∀ j, j < argminIdx [5, 8] →
      ([5, 8] : List Nat).getD (argminIdx [5, 8]) 0 <
        ([5, 8] : List Nat).getD j 0) :=
  nn_selection_greedy scenarioGraphAkl "Auckland Airport" ["A", "B"] [5, 8]
    (by decide) (by decide)

/-- C7: the shortest-path query fails with `NodeNotFound` exactly when an
endpoint is missing from the graph, fails with `Unreachable` exactly when
both endpoints are present but no walk joins them, and `nearest_neighbor`
propagates one of these failures (rather than returning a result) whenever
some stop in its list is missing from the graph or unreachable from the
depot (the current node of the first iteration, which queries every stop). -/
theorem spl_error_kinds_and_propagation (g : Graph) (a b dep x : String)
    (rest : List String) (hx : x ∈ rest)
    (hbad : ¬ (x ∈ g.nodes ∧ Reachable g dep x)) :
    (spl_dist g a b = .error .NodeNotFound ↔
      ¬ (a ∈ g.nodes ∧ b ∈ g.nodes)) ∧
    (spl_dist g a b = .error .Unreachable ↔
      a ∈ g.nodes ∧ b ∈ g.nodes ∧ ¬ Reachable g a b) ∧
    ∃ e, nearest_neighbor g (dep :: rest) = .error e ∧
      (e = Err.NodeNotFound ∨ e = Err.Unreachable) := by
  refine ⟨spl_dist_nodeNotFound_iff, spl_dist_unreachable_iff, ?_⟩
  have herr : ∃ e0, spl_dist g dep x = .error e0 := by
    by_cases hdm : dep ∈ g.nodes ∧ x ∈ g.nodes
    · by_cases hrx : Reachable g dep x
      · exact absurd ⟨hdm.2, hrx⟩ hbad
      · exact ⟨_, spl_dist_unreachable_iff.mpr ⟨hdm.1, hdm.2, hrx⟩⟩
    · exact ⟨_, spl_dist_nodeNotFound_iff.mpr hdm⟩
  obtain ⟨e0, he0⟩ := herr
  exact nearest_neighbor_error_of_bad_stop hx he0

set_option maxRecDepth 100000 in
/-- Witness for C7: the stop `Z` is absent from the scenario graph, so the
tour over `[Auckland Airport, A, Z]` fails. -/
theorem spl_error_kinds_and_propagation_witness :
    (spl_dist scenarioGraphAkl "A" "B" = .error .NodeNotFound ↔
      ¬ ("A" ∈ scenarioGraphAkl.nodes ∧ "B" ∈ scenarioGraphAkl.nodes)) ∧
    (spl_dist scenarioGraphAkl "A" "B" = .error .Unreachable ↔
      "A" ∈ scenarioGraphAkl.nodes ∧ "B" ∈ scenarioGraphAkl.nodes ∧
        ¬ Reachable scenarioGraphAkl "A" "B") ∧
    ∃ e, nearest_neighbor scenarioGraphAkl
        ("Auckland Airport" :: ["A", "Z"]) = .error e ∧
      (e = Err.NodeNotFound ∨ e = Err.Unreachable) :=
  spl_error_kinds_and_propagation scenarioGraphAkl "A" "B" "Auckland Airport"
    "Z" ["A", "Z"] (by decide) (fun hc => absurd hc.1 (by decide))

/-- Witness for C8 at the spec's example: labels `[R1, R1, R2]` aligned with
stops `[h1, h2, h3]`. -/
theorem region_partition_spec_witness :
    partitionRegion ([] ++ (["h1", "h2"] ++ ["h3"]))
        ([] ++ (List.replicate (["h1", "h2"] : List String).length "R1" ++
          ["R2"])) "R1" =
      .ok ("Auckland Airport" :: ["h1", "h2"]) ∧
    partitionRegion ([] ++ (["h1", "h2"] ++ ["h3"]))
        ([] ++ (List.replicate (["h1", "h2"] : List String).length "R1" ++
          ["R2"])) "R3" =
      .error .RegionNotFound :=
  region_partition_spec [] ["h1", "h2"] ["h3"] [] ["R2"] "R1" "R3" rfl
    (by decide) (by decide) (by decide) (by decide)
